import Mathlib

/-!
Shallow embedding of the constrained-linear-inversion core of `labkit`
(`src/labkit/core/analysis/deconfusion.py` and
`src/labkit/core/analysis/tomography.py`).

The embedding has two layers:

* an untyped "numpy level" (`NArr1`, `NArr2`, `NArr3` mirror one-, two- and
  three-dimensional `np.ndarray`s with rational entries) on which the runtime
  validation and the
  control flow of each routine are modelled step by step, in the order the
  Python code executes them (an `assert` that fires is modelled by the
  corresponding error outcome of the run function; the spec's taxonomy names
  the shape asserts `ShapeError` and the stochasticity assert
  `ConstraintError`);

* a typed mathematical level (functions over `Matrix (Fin n) (Fin n) ℂ` and
  real vectors) on which the convex programs each routine hands to the
  optimization backend are modelled exactly, with the backend idealised as an
  exact minimiser: `IsDeconOptimal` / `IsProcessOptimal` hold of precisely the
  points the backend may return.
-/

open scoped ComplexOrder
open scoped Matrix

/-- Model of a 1-dimensional `np.ndarray` with rational entries. -/
structure NArr1 where
  len : ℕ
  entry : ℕ → ℚ

/-- Model of a 2-dimensional `np.ndarray` with rational entries. -/
structure NArr2 where
  rows : ℕ
  cols : ℕ
  entry : ℕ → ℕ → ℚ

/-- Model of a 3-dimensional `np.ndarray` with rational entries. -/
structure NArr3 where
  dim0 : ℕ
  dim1 : ℕ
  dim2 : ℕ
  entry : ℕ → ℕ → ℕ → ℚ

/-- Column sum `np.sum(C, axis=0)[j]` of a 2-dimensional array. -/
def NArr2.colSum (C : NArr2) (j : ℕ) : ℚ :=
  ∑ i ∈ Finset.range C.rows, C.entry i j

/-- Stochasticity acceptance test of `deconfusion`
(`deconfusion.py` line 19): `np.allclose(np.sum(C, axis=0), np.ones((n,)),
atol=1e-6)`.  `np.allclose(a, b, atol)` accepts when
`|a_j - b_j| ≤ atol + rtol * |b_j|` for every `j`, with numpy's default
relative tolerance `rtol = 1e-5` (the call overrides only `atol`), so with
`b_j = 1` the effective absolute threshold is `1e-6 + 1e-5 = 11/10^6`. -/
def stochasticOk (C : NArr2) : Prop :=
  ∀ j < C.rows, |C.colSum j - 1| ≤ 11 / 1000000

instance (C : NArr2) : Decidable (stochasticOk C) :=
  Nat.decidableBallLT C.rows fun j _ => |C.colSum j - 1| ≤ 11 / 1000000

/-- Outcome of running `deconfusion` up to (and including) the decision to
invoke the optimization backend.  `solveCall warned` is the only outcome in
which `prob.solve()` is reached; `warned` records whether the ill-conditioning
warning lines were printed to the console beforehand. -/
inductive DeconOutcome where
  | shapeError : DeconOutcome
  | constraintError : DeconOutcome
  | solveCall : Bool → DeconOutcome
deriving DecidableEq

/-- Control flow of `deconfusion(C, p_measured)` (`deconfusion.py` lines
14-33), parametrised by `cond`, the value `np.linalg.cond` computes for a
matrix (the condition-number routine is numpy's, external to the repository):
`n = C.shape[0]`; assert `C.shape == (n, n)`; assert
`p_measured.shape == (n,)`; assert the column sums pass `np.allclose` (see
`stochasticOk`); print a warning iff `np.linalg.cond(C) > 10`; then call
`prob.solve()`. -/
def deconfusionRun (cond : NArr2 → ℚ) (C : NArr2) (pm : NArr1) : DeconOutcome :=
  if C.cols = C.rows then
    if pm.len = C.rows then
      if stochasticOk C then
        DeconOutcome.solveCall (decide (10 < cond C))
      else DeconOutcome.constraintError
    else DeconOutcome.shapeError
  else DeconOutcome.shapeError

/-- Outcome of running `qubit_state_tomography` up to the backend call
(`tomography.py` lines 9-38).  `indexError` models the `IndexError` raised by
`measurement_bases[0]` on an empty sequence (line 14), which the code executes
before any `assert`. -/
inductive TomoOutcome where
  | indexError : TomoOutcome
  | shapeError : TomoOutcome
  | solveCall : TomoOutcome
deriving DecidableEq

/-- Control flow of `qubit_state_tomography(measurement_bases, values)`
(`tomography.py` lines 9-38): `n = measurement_bases[0].shape[0]` (raises
`IndexError` on an empty sequence); assert every basis has shape `(n, n)`;
assert `len(values) == len(measurement_bases)`; then build the design matrix
and call `prob.solve()`. -/
def qubitStateTomographyRun (bases : List NArr2) (values : List ℚ) : TomoOutcome :=
  match bases with
  | [] => TomoOutcome.indexError
  | b0 :: rest =>
    if ∀ b ∈ b0 :: rest, b.rows = b0.rows ∧ b.cols = b0.rows then
      if values.length = (b0 :: rest).length then
        TomoOutcome.solveCall
      else TomoOutcome.shapeError
    else TomoOutcome.shapeError

/-- Control flow of `process_tomography(rho_before, rho_after, expand_basis)`
(`tomography.py` lines 44-86): after `np.asarray`, assert
`rho_before.ndim == 3` (holds by construction for `NArr3`); assert
`rho_before.shape == rho_after.shape`; assert
`rho_before.shape[1] == rho_before.shape[2]`; assert
`len(expand_basis) == N**2` with `N = rho_before.shape[1]`; then build the
design matrix and call `prob.solve()`. -/
def processTomographyRun (before after basis : NArr3) : TomoOutcome :=
  if before.dim0 = after.dim0 ∧ before.dim1 = after.dim1 ∧ before.dim2 = after.dim2 then
    if before.dim1 = before.dim2 then
      if basis.dim0 = before.dim1 ^ 2 then
        TomoOutcome.solveCall
      else TomoOutcome.shapeError
    else TomoOutcome.shapeError
  else TomoOutcome.shapeError

/-- Status reported by the optimization backend for one solve, as named by
the backend interface (spec §6): an optimal point, infeasibility,
unboundedness, or an internal solver error. -/
inductive BackendStatus where
  | optimal : BackendStatus
  | infeasible : BackendStatus
  | unbounded : BackendStatus
  | solverError : BackendStatus
deriving DecidableEq

/-- Result, as seen by the caller, of running a Python tail
`res = prob.solve(); return variable.value`: either an uncaught exception
propagates, or a value is returned (`none` models Python's `None`). -/
inductive PyReturn (α : Type) where
  | raises : String → PyReturn α
  | returns : Option α → PyReturn α
deriving DecidableEq

/-- Models the common tail of all three solvers — `res = prob.solve()`
followed by `return variable.value` with no surrounding error handling
(`deconfusion.py` lines 33-36, `tomography.py` lines 38-41 and 86-89) —
under the documented behaviour of the cvxpy backend: `prob.solve()` raises
`SolverError` when the underlying solver fails internally, while for an
infeasible or unbounded problem it returns normally and the variable's
`.value` attribute is `None`; for an optimal status `.value` holds the
optimal point. -/
def solveAndReturnValue {α : Type} (s : BackendStatus) (pstar : α) : PyReturn α :=
  match s with
  | BackendStatus.optimal => PyReturn.returns (some pstar)
  | BackendStatus.infeasible => PyReturn.returns none
  | BackendStatus.unbounded => PyReturn.returns none
  | BackendStatus.solverError => PyReturn.raises "SolverError"

/-- Feasible set of the deconfusion program (`deconfusion.py` line 29):
`0 <= p`, `p <= 1`, `sum(p) == 1.0`. -/
def DeconFeasible (n : ℕ) (p : Fin n → ℝ) : Prop :=
  (∀ i, 0 ≤ p i) ∧ (∀ i, p i ≤ 1) ∧ ∑ i, p i = 1

/-- Objective of the deconfusion program (`deconfusion.py` line 28):
`sum_squares(C @ p_unconfused - p_measured)`.  The dimension argument `n`
mirrors the code's `n = C.shape[0]` and is always instantiated with `C.rows`
(for the concrete inputs below, with the literal value of `C.rows`). -/
def deconObj (n : ℕ) (C : NArr2) (pm : NArr1) (p : Fin n → ℝ) : ℝ :=
  ∑ i : Fin n,
    ((∑ j : Fin n, (C.entry i j : ℝ) * p j) - (pm.entry i : ℝ)) ^ 2

/-- Characterisation of the points the (idealised, exact) backend may assign
to `p_unconfused` when solving the deconfusion program: feasible points of
minimal objective. -/
def IsDeconOptimal (n : ℕ) (C : NArr2) (pm : NArr1) (p : Fin n → ℝ) : Prop :=
  DeconFeasible n p ∧
    ∀ q : Fin n → ℝ, DeconFeasible n q → deconObj n C pm p ≤ deconObj n C pm q

/-- Identity matrix as an `NArr2` of size `n`. -/
def idArr (n : ℕ) : NArr2 :=
  ⟨n, n, fun i j => if i = j then 1 else 0⟩

/-- Length-`n` `NArr1` built from a list (entries beyond the list are 0,
matching how a concrete numpy vector literal is modelled). -/
def vecArr (xs : List ℚ) : NArr1 :=
  ⟨xs.length, fun i => xs.getD i 0⟩

/-- Remainder part of the mixed-radix decomposition of an F-order flat index:
an F-order (first-axis-fastest) flat index `r` over a `(p, q)`-shaped pair of
axes has first coordinate `r % p`. -/
def fmod {p q : ℕ} (r : Fin (p * q)) : Fin p :=
  ⟨(r : ℕ) % p, Nat.mod_lt _ (by
    rcases Nat.eq_zero_or_pos p with h0 | h1
    · exact absurd r.isLt (by simp [h0])
    · exact h1)⟩

/-- Quotient part of the mixed-radix decomposition of an F-order flat index:
the second coordinate is `r / p`. -/
def fdiv {p q : ℕ} (r : Fin (p * q)) : Fin q :=
  ⟨(r : ℕ) / p, by
    have hp : 0 < p := by
      rcases Nat.eq_zero_or_pos p with h0 | h1
      · exact absurd r.isLt (by simp [h0])
      · exact h1
    exact (Nat.div_lt_iff_lt_mul hp).mpr (lt_of_lt_of_eq r.isLt (Nat.mul_comm p q))⟩

/-- F-order flat index of the coordinate pair `(i, j)` over axes of sizes
`(p, q)`: the first axis is fastest, so the flat index is `i + p * j`. -/
def finPair {p q : ℕ} (i : Fin p) (j : Fin q) : Fin (p * q) :=
  ⟨(i : ℕ) + p * (j : ℕ), by
    calc (i : ℕ) + p * (j : ℕ) < p + p * (j : ℕ) := by omega
    _ = p * ((j : ℕ) + 1) := by ring
    _ ≤ p * q := Nat.mul_le_mul_left p j.isLt⟩

/-- Column-major (F-order) flattening of a square complex matrix into a
vector, as performed both by `np.reshape(mb, (n*n,), "F")` (`tomography.py`
line 24) and by `cpy.vec(rho, "F")` / `cpy.vec(chi, order="F")`
(`tomography.py` lines 30 and 79): the flat index `s` holds entry
`(s % n, s / n)`. -/
noncomputable def vecF {n : ℕ} (M : Matrix (Fin n) (Fin n) ℂ) : Fin (n * n) → ℂ :=
  fun s => M (fmod s) (fdiv s)

/-- Position at which the column-major (Fortran) flattening convention, as
worded by the spec ("reading a matrix into a vector column-by-column"),
places the entry in row `r`, column `c` of an `n × n` matrix: position
`c * n + r`. -/
def specColMajorIndex {n : ℕ} (r c : Fin n) : Fin (n * n) :=
  ⟨(c : ℕ) * n + (r : ℕ), by
    calc (c : ℕ) * n + (r : ℕ) < (c : ℕ) * n + n := by omega
    _ = ((c : ℕ) + 1) * n := by ring
    _ ≤ n * n := Nat.mul_le_mul_right n c.isLt⟩

/-- Design matrix assembled by `qubit_state_tomography` (`tomography.py`
lines 12-26): row `i` is the F-order flattening of the `i`-th measurement
basis operator. -/
noncomputable def stateA {kk n : ℕ} (bases : Fin kk → Matrix (Fin n) (Fin n) ℂ) :
    Matrix (Fin kk) (Fin (n * n)) ℂ :=
  Matrix.of fun i s => vecF (bases i) s

/-- Objective of the state-tomography program (`tomography.py` line 32):
`sum_squares(real(A @ rho_vec - values))` — the sum of squares of the real
part of each component of the linear residual. -/
noncomputable def stateTomoObj {kk n : ℕ} (bases : Fin kk → Matrix (Fin n) (Fin n) ℂ)
    (values : Fin kk → ℝ) (rho : Matrix (Fin n) (Fin n) ℂ) : ℝ :=
  ∑ i, ((stateA bases).mulVec (vecF rho) i - (values i : ℂ)).re ^ 2

/-- Contracted tensor built by the einsum `"mab, lbc, ncd -> lmnad"` of
`process_tomography` (`tomography.py` lines 64-69); the third operand is
`expand_basis.conj().swapaxes(-1, -2)`, whose `[n, c, d]` entry is the
conjugate of `expand_basis[n, d, c]`. -/
noncomputable def tensorBases {k N : ℕ} (rhoB : Fin k → Matrix (Fin N) (Fin N) ℂ)
    (E : Fin (N * N) → Matrix (Fin N) (Fin N) ℂ)
    (l : Fin k) (m n : Fin (N * N)) (a d : Fin N) : ℂ :=
  ∑ b, ∑ c, E m a b * rhoB l b c * star (E n d c)

/-- Design matrix `A` of `process_tomography` (`tomography.py` lines 70-73).
The chain `np.reshape(T, (k, N**2, N**2, -1), order="F")`, then
`.transpose((0, 3, 1, 2))`, then `np.reshape(_, (k * N**2, -1), order="F")`
sends the einsum entry `T[l, m, n, a, d]` to
`A[l + k * (a + N * d), m + N**2 * n]` (F-order reshapes enumerate both
source and target with the first axis fastest, so the first reshape merges
`(a, d)` into the F-order pair index `a + N * d`, and the final reshape
merges `(l, q)` into `l + k * q` on rows and `(m, n)` into `m + N**2 * n`
on columns). -/
noncomputable def procA {k N : ℕ} (rhoB : Fin k → Matrix (Fin N) (Fin N) ℂ)
    (E : Fin (N * N) → Matrix (Fin N) (Fin N) ℂ) :
    Matrix (Fin (k * (N * N))) (Fin ((N * N) * (N * N))) ℂ :=
  Matrix.of fun r s =>
    tensorBases rhoB E (fmod r) (fmod s) (fdiv s) (fmod (fdiv r)) (fdiv (fdiv r))

/-- Observation vector `Y = np.reshape(rho_after, (-1,), order="F")`
(`tomography.py` line 75): the F-order flat index `l + k * (a + N * d)` holds
`rho_after[l][a, d]`. -/
noncomputable def procY {k N : ℕ} (rhoA : Fin k → Matrix (Fin N) (Fin N) ℂ) :
    Fin (k * (N * N)) → ℂ :=
  fun r => rhoA (fmod r) (fmod (fdiv r)) (fdiv (fdiv r))

/-- Channel encoded by a process matrix `chi` over the expansion basis `E`:
`rho ↦ ∑ m n, chi m n • (E m * rho * (E n)ᴴ)`. -/
noncomputable def applyChi {N : ℕ} (E : Fin (N * N) → Matrix (Fin N) (Fin N) ℂ)
    (chi : Matrix (Fin (N * N)) (Fin (N * N)) ℂ)
    (rho : Matrix (Fin N) (Fin N) ℂ) : Matrix (Fin N) (Fin N) ℂ :=
  ∑ m, ∑ n, chi m n • (E m * rho * (E n)ᴴ)

/-- Objective of the process-tomography program (`tomography.py` line 79):
`sum_squares(A @ vec(chi, order="F") - Y)` — cvxpy's `sum_squares` of a
complex vector is the sum of the squared moduli of its components (no
`cpy.real` is applied here, unlike in `qubit_state_tomography`). -/
noncomputable def processTomoObj {k N : ℕ} (rhoB rhoA : Fin k → Matrix (Fin N) (Fin N) ℂ)
    (E : Fin (N * N) → Matrix (Fin N) (Fin N) ℂ)
    (chi : Matrix (Fin (N * N)) (Fin (N * N)) ℂ) : ℝ :=
  ∑ r, Complex.normSq ((procA rhoB E).mulVec (vecF chi) r - procY rhoA r)

/-- Characterisation of the points the (idealised, exact) backend may assign
to `chi` when solving the process-tomography program (`tomography.py` lines
77-86): the variable is declared `hermitian=True` and constrained by
`chi >> 0`, i.e. it ranges over positive-semidefinite matrices
(`Matrix.PosSemidef` bundles Hermiticity with nonnegativity of the quadratic
form), and an optimum minimises the objective among them. -/
def IsProcessOptimal {k N : ℕ} (rhoB rhoA : Fin k → Matrix (Fin N) (Fin N) ℂ)
    (E : Fin (N * N) → Matrix (Fin N) (Fin N) ℂ)
    (chi : Matrix (Fin (N * N)) (Fin (N * N)) ℂ) : Prop :=
  chi.PosSemidef ∧
    ∀ chi' : Matrix (Fin (N * N)) (Fin (N * N)) ℂ, chi'.PosSemidef →
      processTomoObj rhoB rhoA E chi ≤ processTomoObj rhoB rhoA E chi'

/-- Valid density matrix: Hermitian, positive semidefinite, trace one. -/
def IsDensityMatrix {N : ℕ} (rho : Matrix (Fin N) (Fin N) ℂ) : Prop :=
  rho.PosSemidef ∧ rho.trace = 1

/-- Expansion basis spanning the space of `N × N` complex matrices. -/
def SpansMatrixSpace {N : ℕ} (E : Fin (N * N) → Matrix (Fin N) (Fin N) ℂ) : Prop :=
  ∀ M : Matrix (Fin N) (Fin N) ℂ, M ∈ Submodule.span ℂ (Set.range E)

/-- Constant condition-number oracle used to instantiate `deconfusionRun` at
concrete inputs. -/
def condConst (x : ℚ) : NArr2 → ℚ := fun _ => x

/-- Pauli expansion basis `{I, X, Y, Z}` for `N = 2`, a spanning basis of the
`2 × 2` complex matrices. -/
noncomputable def pauliE : Fin (2 * 2) → Matrix (Fin 2) (Fin 2) ℂ :=
  ![!![1, 0; 0, 1], !![0, 1; 1, 0], !![0, -Complex.I; Complex.I, 0], !![1, 0; 0, -1]]

/-- Maximally mixed single-qubit state `I / 2`. -/
noncomputable def rhoHalf : Matrix (Fin 2) (Fin 2) ℂ :=
  !![1/2, 0; 0, 1/2]

/-- Single-sample input list consisting of the maximally mixed state. -/
noncomputable def rhoBMixed : Fin 1 → Matrix (Fin 2) (Fin 2) ℂ :=
  fun _ => rhoHalf

/-- Process matrix of the completely depolarising channel in the Pauli
basis: `diag(1/4, 1/4, 1/4, 1/4)`. -/
noncomputable def chiDep : Matrix (Fin (2 * 2)) (Fin (2 * 2)) ℂ :=
  Matrix.diagonal fun _ => (1 / 4 : ℂ)

/-- Test state `|0⟩⟨0|`. -/
noncomputable def rhoTest : Matrix (Fin 2) (Fin 2) ℂ :=
  !![1, 0; 0, 0]

/-- Trivial expansion basis for `N = 1`. -/
noncomputable def oneE : Fin (1 * 1) → Matrix (Fin 1) (Fin 1) ℂ :=
  fun _ => 1

/-- Single-sample input list for `N = 1`: the state `[[1]]`. -/
noncomputable def rhoBOne : Fin 1 → Matrix (Fin 1) (Fin 1) ℂ :=
  fun _ => 1

/-- Single-sample output list for the `C4` counterexample: the matrix
`[[i]]`, so that the linear residual of the process program is purely
imaginary at `chi = 0`. -/
noncomputable def rhoAImag : Fin 1 → Matrix (Fin 1) (Fin 1) ℂ :=
  fun _ => Matrix.of fun _ _ => Complex.I

/-- Coefficients expanding an arbitrary `2 × 2` complex matrix over the
Pauli basis `{I, X, Y, Z}`. -/
noncomputable def pauliCoeff (M : Matrix (Fin 2) (Fin 2) ℂ) : Fin (2 * 2) → ℂ :=
  ![(M 0 0 + M 1 1) / 2, (M 0 1 + M 1 0) / 2, (M 0 1 - M 1 0) * Complex.I / 2,
    (M 0 0 - M 1 1) / 2]

lemma fmod_finPair {p q : ℕ} (i : Fin p) (j : Fin q) : fmod (finPair i j) = i := by
  apply Fin.ext
  simp only [fmod, finPair]
  rw [Nat.add_mul_mod_self_left, Nat.mod_eq_of_lt i.isLt]

lemma fdiv_finPair {p q : ℕ} (i : Fin p) (j : Fin q) : fdiv (finPair i j) = j := by
  apply Fin.ext
  simp only [fdiv, finPair]
  rw [Nat.add_mul_div_left _ _ i.pos, Nat.div_eq_of_lt i.isLt, Nat.zero_add]

lemma finPair_fmod_fdiv {p q : ℕ} (r : Fin (p * q)) : finPair (fmod r) (fdiv r) = r := by
  apply Fin.ext
  simp only [fmod, fdiv, finPair]
  exact Nat.mod_add_div _ _

/-- Summation over an F-order flat index splits into the double sum over the
two coordinates. -/
lemma sum_fin_pair {M : Type} [AddCommMonoid M] {p q : ℕ} (f : Fin (p * q) → M) :
    ∑ r, f r = ∑ i : Fin p, ∑ j : Fin q, f (finPair i j) := by
  have hbij : Function.Bijective (fun x : Fin p × Fin q => finPair x.1 x.2) := by
    constructor
    · intro x y hxy
      have hxy' : finPair x.1 x.2 = finPair y.1 y.2 := hxy
      have h1 : fmod (finPair x.1 x.2) = fmod (finPair y.1 y.2) := by rw [hxy']
      have h2 : fdiv (finPair x.1 x.2) = fdiv (finPair y.1 y.2) := by rw [hxy']
      rw [fmod_finPair, fmod_finPair] at h1
      rw [fdiv_finPair, fdiv_finPair] at h2
      exact Prod.ext h1 h2
    · exact fun r => ⟨(fmod r, fdiv r), finPair_fmod_fdiv r⟩
  have h := Fintype.sum_bijective (fun x : Fin p × Fin q => finPair x.1 x.2) hbij
    (fun x => f (finPair x.1 x.2)) f fun x => rfl
  rw [← h, Fintype.sum_prod_type]

lemma tensorBases_eq {k N : ℕ} (rhoB : Fin k → Matrix (Fin N) (Fin N) ℂ)
    (E : Fin (N * N) → Matrix (Fin N) (Fin N) ℂ)
    (l : Fin k) (m n : Fin (N * N)) (a d : Fin N) :
    tensorBases rhoB E l m n a d = (E m * rhoB l * (E n)ᴴ) a d := by
  simp only [tensorBases, Matrix.mul_apply, Matrix.conjTranspose_apply, Finset.sum_mul]
  exact Finset.sum_comm

lemma applyChi_apply {N : ℕ} (E : Fin (N * N) → Matrix (Fin N) (Fin N) ℂ)
    (chi : Matrix (Fin (N * N)) (Fin (N * N)) ℂ)
    (rho : Matrix (Fin N) (Fin N) ℂ) (a d : Fin N) :
    applyChi E chi rho a d = ∑ m, ∑ n, chi m n * (E m * rho * (E n)ᴴ) a d := by
  simp [applyChi, Matrix.sum_apply, smul_eq_mul]

/-- Index correspondence of the tensor-contraction-then-reshape step: row `r`
of `A @ vec(chi, order="F")` is the `(a, d)` entry of the channel encoded by
`chi` applied to the `l`-th input state, where `l = r % k`, `a = (r / k) % N`,
`d = (r / k) / N`. -/
lemma procA_mulVec {k N : ℕ} (rhoB : Fin k → Matrix (Fin N) (Fin N) ℂ)
    (E : Fin (N * N) → Matrix (Fin N) (Fin N) ℂ)
    (chi : Matrix (Fin (N * N)) (Fin (N * N)) ℂ) (r : Fin (k * (N * N))) :
    (procA rhoB E).mulVec (vecF chi) r =
      applyChi E chi (rhoB (fmod r)) (fmod (fdiv r)) (fdiv (fdiv r)) := by
  show ∑ s, procA rhoB E r s * vecF chi s = _
  rw [sum_fin_pair (fun s => procA rhoB E r s * vecF chi s)]
  rw [applyChi_apply]
  refine Finset.sum_congr rfl fun m _ => Finset.sum_congr rfl fun n _ => ?_
  simp only [procA, vecF, Matrix.of_apply, fmod_finPair, fdiv_finPair, tensorBases_eq]
  ring

/-- Objective of the process-tomography program, rewritten sample by sample:
the sum over all samples `l` and all entries `(a, d)` of the squared modulus
of `(applyChi E chi (rhoB l) - rhoA l) a d`. -/
lemma processTomoObj_eq {k N : ℕ} (rhoB rhoA : Fin k → Matrix (Fin N) (Fin N) ℂ)
    (E : Fin (N * N) → Matrix (Fin N) (Fin N) ℂ)
    (chi : Matrix (Fin (N * N)) (Fin (N * N)) ℂ) :
    processTomoObj rhoB rhoA E chi =
      ∑ l : Fin k, ∑ a : Fin N, ∑ d : Fin N,
        Complex.normSq ((applyChi E chi (rhoB l) - rhoA l) a d) := by
  unfold processTomoObj
  rw [sum_fin_pair
    (fun r => Complex.normSq ((procA rhoB E).mulVec (vecF chi) r - procY rhoA r))]
  refine Finset.sum_congr rfl fun l _ => ?_
  rw [sum_fin_pair (fun j => Complex.normSq
    ((procA rhoB E).mulVec (vecF chi) (finPair l j) - procY rhoA (finPair l j)))]
  refine Finset.sum_congr rfl fun a _ => Finset.sum_congr rfl fun d _ => ?_
  rw [procA_mulVec]
  simp [procY, fmod_finPair, fdiv_finPair, Matrix.sub_apply]

lemma processTomoObj_nonneg {k N : ℕ} (rhoB rhoA : Fin k → Matrix (Fin N) (Fin N) ℂ)
    (E : Fin (N * N) → Matrix (Fin N) (Fin N) ℂ)
    (chi : Matrix (Fin (N * N)) (Fin (N * N)) ℂ) :
    0 ≤ processTomoObj rhoB rhoA E chi :=
  Finset.sum_nonneg fun _ _ => Complex.normSq_nonneg _

lemma processTomoObj_eq_zero_of {k N : ℕ}
    {rhoB rhoA : Fin k → Matrix (Fin N) (Fin N) ℂ}
    {E : Fin (N * N) → Matrix (Fin N) (Fin N) ℂ}
    {chi : Matrix (Fin (N * N)) (Fin (N * N)) ℂ}
    (h : ∀ l, applyChi E chi (rhoB l) = rhoA l) :
    processTomoObj rhoB rhoA E chi = 0 := by
  rw [processTomoObj_eq]
  refine Finset.sum_eq_zero fun l _ => ?_
  simp [h l]

lemma applyChi_fixes_of_obj_zero {k N : ℕ}
    {rhoB rhoA : Fin k → Matrix (Fin N) (Fin N) ℂ}
    {E : Fin (N * N) → Matrix (Fin N) (Fin N) ℂ}
    {chi : Matrix (Fin (N * N)) (Fin (N * N)) ℂ}
    (h : processTomoObj rhoB rhoA E chi = 0) (l : Fin k) :
    applyChi E chi (rhoB l) = rhoA l := by
  have hz : ∀ r ∈ Finset.univ,
      Complex.normSq ((procA rhoB E).mulVec (vecF chi) r - procY rhoA r) = 0 := by
    have hnn : ∀ r ∈ Finset.univ, (0 : ℝ) ≤
        Complex.normSq ((procA rhoB E).mulVec (vecF chi) r - procY rhoA r) :=
      fun r _ => Complex.normSq_nonneg _
    exact (Finset.sum_eq_zero_iff_of_nonneg hnn).mp h
  ext a d
  have h1 := hz (finPair l (finPair a d)) (Finset.mem_univ _)
  rw [procA_mulVec] at h1
  simp only [procY, fmod_finPair, fdiv_finPair] at h1
  exact sub_eq_zero.mp (Complex.normSq_eq_zero.mp h1)

lemma applyChi_add {N : ℕ} (E : Fin (N * N) → Matrix (Fin N) (Fin N) ℂ)
    (chi : Matrix (Fin (N * N)) (Fin (N * N)) ℂ)
    (rho rho' : Matrix (Fin N) (Fin N) ℂ) :
    applyChi E chi (rho + rho') = applyChi E chi rho + applyChi E chi rho' := by
  unfold applyChi
  rw [← Finset.sum_add_distrib]
  refine Finset.sum_congr rfl fun m _ => ?_
  rw [← Finset.sum_add_distrib]
  refine Finset.sum_congr rfl fun n _ => ?_
  rw [← smul_add]
  congr 1
  rw [Matrix.mul_add, Matrix.add_mul]

lemma applyChi_smul {N : ℕ} (E : Fin (N * N) → Matrix (Fin N) (Fin N) ℂ)
    (chi : Matrix (Fin (N * N)) (Fin (N * N)) ℂ)
    (z : ℂ) (rho : Matrix (Fin N) (Fin N) ℂ) :
    applyChi E chi (z • rho) = z • applyChi E chi rho := by
  unfold applyChi
  rw [Finset.smul_sum]
  refine Finset.sum_congr rfl fun m _ => ?_
  rw [Finset.smul_sum]
  refine Finset.sum_congr rfl fun n _ => ?_
  rw [smul_comm]
  congr 1
  rw [Matrix.mul_smul, Matrix.smul_mul]

lemma applyChi_zero {N : ℕ} (E : Fin (N * N) → Matrix (Fin N) (Fin N) ℂ)
    (chi : Matrix (Fin (N * N)) (Fin (N * N)) ℂ) :
    applyChi E chi (0 : Matrix (Fin N) (Fin N) ℂ) = 0 := by
  unfold applyChi
  refine Finset.sum_eq_zero fun m _ => Finset.sum_eq_zero fun n _ => ?_
  rw [Matrix.mul_zero, Matrix.zero_mul, smul_zero]

/-- A spanning expansion basis admits a positive-semidefinite process matrix
whose channel is the identity: write `1 = ∑ m, c m • E m` and take
`chi₀ = fun m n => c m * conj (c n)`. -/
lemma exists_identity_chi {N : ℕ} {E : Fin (N * N) → Matrix (Fin N) (Fin N) ℂ}
    (hspan : SpansMatrixSpace E) :
    ∃ chi₀ : Matrix (Fin (N * N)) (Fin (N * N)) ℂ,
      chi₀.PosSemidef ∧ ∀ rho, applyChi E chi₀ rho = rho := by
  obtain ⟨c, hc⟩ := (mem_span_range_iff_exists_fun ℂ).mp (hspan 1)
  refine ⟨Matrix.of fun m n => c m * star (c n), ⟨?_, ?_⟩, ?_⟩
  · ext m n
    simp [Matrix.conjTranspose_apply, mul_comm]
  · intro x
    have hx : star x ⬝ᵥ ((Matrix.of fun m n => c m * star (c n)) *ᵥ x) =
        (∑ m, star (x m) * c m) * star (∑ m, star (x m) * c m) := by
      simp only [Matrix.dotProduct, Matrix.mulVec, Pi.star_apply, Matrix.of_apply,
        Finset.mul_sum, Finset.sum_mul, star_sum, star_mul, star_star]
      rw [Finset.sum_comm]
      refine Finset.sum_congr rfl fun m _ => Finset.sum_congr rfl fun n _ => ?_
      ring
    rw [hx, Complex.star_def, Complex.mul_conj]
    exact Complex.zero_le_real.mpr (Complex.normSq_nonneg _)
  · intro rho
    have rhs : (∑ m, c m • E m) * rho * (∑ n, c n • E n)ᴴ
        = ∑ m, ∑ n, (c m * star (c n)) • (E m * rho * (E n)ᴴ) := by
      rw [Matrix.conjTranspose_sum, Matrix.sum_mul, Matrix.sum_mul]
      refine Finset.sum_congr rfl fun m _ => ?_
      rw [Matrix.mul_sum]
      refine Finset.sum_congr rfl fun n _ => ?_
      rw [Matrix.conjTranspose_smul, Matrix.smul_mul, Matrix.smul_mul, Matrix.mul_smul,
        smul_smul]
    have lhs : applyChi E (Matrix.of fun m n => c m * star (c n)) rho =
        ∑ m, ∑ n, (c m * star (c n)) • (E m * rho * (E n)ᴴ) := rfl
    rw [lhs, ← rhs, hc]
    simp

/-- Objective of the deconfusion program when `C` is the identity: the
squared distance from `p` to `p_measured`. -/
lemma deconObj_idArr (n : ℕ) (pm : NArr1) (p : Fin n → ℝ) :
    deconObj n (idArr n) pm p = ∑ i : Fin n, (p i - (pm.entry i : ℝ)) ^ 2 := by
  refine Finset.sum_congr rfl fun i _ => ?_
  have h : (∑ j : Fin n, ((idArr n).entry i j : ℝ) * p j) = p i := by
    rw [Finset.sum_eq_single i (fun j _ hji => by
        have hne : ¬ ((i : ℕ) = (j : ℕ)) := fun hh => hji ((Fin.ext hh).symm)
        simp [idArr, hne])
      (fun hni => absurd (Finset.mem_univ i) hni)]
    simp [idArr]
  rw [h]

lemma deconFeasible_half : DeconFeasible 2 ![1/2, 1/2] := by
  refine ⟨fun i => ?_, fun i => ?_, ?_⟩
  · fin_cases i <;> norm_num
  · fin_cases i <;> norm_num
  · rw [Fin.sum_univ_two]
    norm_num

lemma deconFeasible_one_zero : DeconFeasible 2 ![1, 0] := by
  refine ⟨fun i => ?_, fun i => ?_, ?_⟩
  · fin_cases i <;> norm_num
  · fin_cases i <;> norm_num
  · rw [Fin.sum_univ_two]
    norm_num

lemma vecArr_half_entry_zero : ((vecArr [1/2, 1/2]).entry 0 : ℝ) = 1/2 := by
  norm_num [vecArr]

lemma vecArr_half_entry_one : ((vecArr [1/2, 1/2]).entry 1 : ℝ) = 1/2 := by
  norm_num [vecArr]

lemma isDeconOptimal_id_half :
    IsDeconOptimal 2 (idArr 2) (vecArr [1/2, 1/2]) ![1/2, 1/2] := by
  constructor
  · exact deconFeasible_half
  · intro q hq
    rw [deconObj_idArr, deconObj_idArr, Fin.sum_univ_two, Fin.sum_univ_two]
    simp only [Fin.val_zero, Fin.val_one, vecArr_half_entry_zero, vecArr_half_entry_one]
    have e0 : (![1/2, 1/2] : Fin 2 → ℝ) 0 = 1/2 := rfl
    have e1 : (![1/2, 1/2] : Fin 2 → ℝ) 1 = 1/2 := rfl
    rw [e0, e1]
    nlinarith [sq_nonneg (q 0 - 1/2), sq_nonneg (q 1 - 1/2)]

lemma isDeconOptimal_id_sixtenths :
    IsDeconOptimal 2 (idArr 2) (vecArr [3/5, 3/5]) ![1/2, 1/2] := by
  constructor
  · exact deconFeasible_half
  · intro q hq
    obtain ⟨hq0, hq1, hqs⟩ := hq
    rw [Fin.sum_univ_two] at hqs
    rw [deconObj_idArr, deconObj_idArr, Fin.sum_univ_two, Fin.sum_univ_two]
    have hp0 : ((vecArr [3/5, 3/5]).entry 0 : ℝ) = 3/5 := by norm_num [vecArr]
    have hp1 : ((vecArr [3/5, 3/5]).entry 1 : ℝ) = 3/5 := by norm_num [vecArr]
    simp only [Fin.val_zero, Fin.val_one, hp0, hp1]
    have e0 : (![1/2, 1/2] : Fin 2 → ℝ) 0 = 1/2 := rfl
    have e1 : (![1/2, 1/2] : Fin 2 → ℝ) 1 = 1/2 := rfl
    rw [e0, e1]
    nlinarith [sq_nonneg (q 0 - q 1), hqs]

lemma isDeconOptimal_id_two_zero :
    IsDeconOptimal 2 (idArr 2) (vecArr [2, 0]) ![1, 0] := by
  constructor
  · exact deconFeasible_one_zero
  · intro q hq
    obtain ⟨hq0, hq1, hqs⟩ := hq
    rw [Fin.sum_univ_two] at hqs
    rw [deconObj_idArr, deconObj_idArr, Fin.sum_univ_two, Fin.sum_univ_two]
    have hp0 : ((vecArr [2, 0]).entry 0 : ℝ) = 2 := by norm_num [vecArr]
    have hp1 : ((vecArr [2, 0]).entry 1 : ℝ) = 0 := by norm_num [vecArr]
    simp only [Fin.val_zero, Fin.val_one, hp0, hp1]
    have e0 : (![1, 0] : Fin 2 → ℝ) 0 = 1 := rfl
    have e1 : (![1, 0] : Fin 2 → ℝ) 1 = 0 := rfl
    rw [e0, e1]
    have ha : (0:ℝ) ≤ (1 - q 0) * (2 - q 0) :=
      mul_nonneg (by linarith [hq1 0]) (by linarith [hq1 0])
    nlinarith [ha, hqs]

lemma deconObj_id_half_eval :
    deconObj 2 (idArr 2) (vecArr [1/2, 1/2]) ![1/2, 1/2] = 0 := by
  rw [deconObj_idArr, Fin.sum_univ_two]
  simp only [Fin.val_zero, Fin.val_one, vecArr_half_entry_zero, vecArr_half_entry_one]
  have e0 : (![1/2, 1/2] : Fin 2 → ℝ) 0 = 1/2 := rfl
  have e1 : (![1/2, 1/2] : Fin 2 → ℝ) 1 = 1/2 := rfl
  rw [e0, e1]
  norm_num

lemma deconObj_id_sixtenths_eval :
    deconObj 2 (idArr 2) (vecArr [3/5, 3/5]) ![1/2, 1/2] = 1/50 := by
  rw [deconObj_idArr, Fin.sum_univ_two]
  have hp0 : ((vecArr [3/5, 3/5]).entry 0 : ℝ) = 3/5 := by norm_num [vecArr]
  have hp1 : ((vecArr [3/5, 3/5]).entry 1 : ℝ) = 3/5 := by norm_num [vecArr]
  simp only [Fin.val_zero, Fin.val_one, hp0, hp1]
  have e0 : (![1/2, 1/2] : Fin 2 → ℝ) 0 = 1/2 := rfl
  have e1 : (![1/2, 1/2] : Fin 2 → ℝ) 1 = 1/2 := rfl
  rw [e0, e1]
  norm_num

lemma specColMajorIndex_eq_finPair {n : ℕ} (r c : Fin n) :
    specColMajorIndex r c = finPair r c := by
  apply Fin.ext
  show (c : ℕ) * n + (r : ℕ) = (r : ℕ) + n * (c : ℕ)
  ring

/-- C2: for every ordered sequence of square operator matrices, the assembled
design matrix (by type a `k × n²` matrix) has `i`-th row equal to the
column-major (Fortran) flattening of the `i`-th operator — the entry of
operator `i` at row `r`, column `c` appears in column `c·n + r` of the design
matrix — and the very same column-major convention governs `cpy.vec(·, "F")`
applied to the unknown variable (`rho` in state tomography, `chi` in process
tomography, both flattened by `vecF`), so the resulting linear map pairs each
operator entry with the matching variable entry:
`(A @ vec M)_i = ∑ r c, bases i r c * M r c`. -/
theorem design_matrix_column_major (kk n : ℕ)
    (bases : Fin kk → Matrix (Fin n) (Fin n) ℂ)
    (M : Matrix (Fin n) (Fin n) ℂ) (i : Fin kk) (r c : Fin n) :
    stateA bases i (specColMajorIndex r c) = bases i r c ∧
    vecF M (specColMajorIndex r c) = M r c ∧
    (stateA bases).mulVec (vecF M) i =
      ∑ r' : Fin n, ∑ c' : Fin n, bases i r' c' * M r' c' := by
  refine ⟨?_, ?_, ?_⟩
  · rw [specColMajorIndex_eq_finPair]
    show vecF (bases i) (finPair r c) = bases i r c
    simp only [vecF, fmod_finPair, fdiv_finPair]
  · rw [specColMajorIndex_eq_finPair]
    simp only [vecF, fmod_finPair, fdiv_finPair]
  · show ∑ s, stateA bases i s * vecF M s = _
    rw [sum_fin_pair (fun s => stateA bases i s * vecF M s)]
    refine Finset.sum_congr rfl fun r' _ => Finset.sum_congr rfl fun c' _ => ?_
    show vecF (bases i) (finPair r' c') * vecF M (finPair r' c') = _
    simp only [vecF, fmod_finPair, fdiv_finPair]

/-- C4 counterexample: at the concrete instance `N = 1`, `k = 1`,
`rho_before = [[[1]]]`, `rho_after = [[[i]]]`, `expand_basis = [[[1]]]` and
`chi = 0`, the objective of `process_tomography` evaluates to `1` while the
sum of squares of the real part of the same residual is `0`: contrary to the
claim, `process_tomography` penalises the full complex residual, not only its
real component. -/
theorem process_objective_penalises_imaginary_part :
    processTomoObj rhoBOne rhoAImag oneE 0 = 1 ∧
      ∑ r, ((procA rhoBOne oneE).mulVec
          (vecF (0 : Matrix (Fin (1 * 1)) (Fin (1 * 1)) ℂ)) r
        - procY rhoAImag r).re ^ 2 = 0 := by
  have hvec : vecF (0 : Matrix (Fin (1 * 1)) (Fin (1 * 1)) ℂ) = 0 := rfl
  have hres : ∀ r : Fin (1 * (1 * 1)),
      (procA rhoBOne oneE).mulVec (vecF (0 : Matrix (Fin (1 * 1)) (Fin (1 * 1)) ℂ)) r
        - procY rhoAImag r = -Complex.I := by
    intro r
    rw [hvec, Matrix.mulVec_zero]
    simp [procY, rhoAImag]
  constructor
  · unfold processTomoObj
    have hterm : ∀ r : Fin (1 * (1 * 1)), Complex.normSq
        ((procA rhoBOne oneE).mulVec (vecF (0 : Matrix (Fin (1 * 1)) (Fin (1 * 1)) ℂ)) r
          - procY rhoAImag r) = 1 := by
      intro r
      rw [hres r]
      simp
    rw [Finset.sum_congr rfl fun r _ => hterm r]
    rw [Finset.sum_const, Finset.card_univ, Fintype.card_fin]
    norm_num
  · refine Finset.sum_eq_zero fun r _ => ?_
    rw [hres r]
    simp

/-- C4 amended: the asymmetry runs the other way around between the two
routines — `qubit_state_tomography` penalises only the real part of its
linear residual, while `process_tomography` penalises the full complex
residual, i.e. the sum of squared real parts plus squared imaginary parts. -/
theorem objective_real_part_asymmetry (kk n k N : ℕ)
    (bases : Fin kk → Matrix (Fin n) (Fin n) ℂ) (values : Fin kk → ℝ)
    (rho : Matrix (Fin n) (Fin n) ℂ)
    (rhoB rhoA : Fin k → Matrix (Fin N) (Fin N) ℂ)
    (E : Fin (N * N) → Matrix (Fin N) (Fin N) ℂ)
    (chi : Matrix (Fin (N * N)) (Fin (N * N)) ℂ) :
    stateTomoObj bases values rho =
      ∑ i, ((stateA bases).mulVec (vecF rho) i - (values i : ℂ)).re ^ 2 ∧
    processTomoObj rhoB rhoA E chi =
      ∑ r, (((procA rhoB E).mulVec (vecF chi) r - procY rhoA r).re ^ 2
        + ((procA rhoB E).mulVec (vecF chi) r - procY rhoA r).im ^ 2) := by
  refine ⟨rfl, ?_⟩
  unfold processTomoObj
  refine Finset.sum_congr rfl fun r _ => ?_
  rw [Complex.normSq_apply]
  ring

/-- C5 counterexample: when the optimization backend reports infeasibility,
the solver tail shared by all three routines returns Python `None` (the unset
`variable.value`) and raises nothing — it does not propagate any typed
`SolverFailure` to the caller. -/
theorem solver_failure_claim_counterexample :
    solveAndReturnValue BackendStatus.infeasible (0 : ℚ) = PyReturn.returns none ∧
      ∀ msg : String,
        solveAndReturnValue BackendStatus.infeasible (0 : ℚ) ≠ PyReturn.raises msg :=
  ⟨rfl, fun _ h => PyReturn.noConfusion h⟩

/-- C5 amended: on a backend-internal error every solver lets the backend's
own `SolverError` exception propagate (uncaught); on an infeasible or
unbounded status every solver silently returns `None`, the unset variable
value; only an optimal status produces a value. -/
theorem solver_failure_propagation (α : Type) (v : α) :
    solveAndReturnValue BackendStatus.solverError v = PyReturn.raises "SolverError" ∧
    solveAndReturnValue BackendStatus.infeasible v = PyReturn.returns none ∧
    solveAndReturnValue BackendStatus.unbounded v = PyReturn.returns none ∧
    solveAndReturnValue BackendStatus.optimal v = PyReturn.returns (some v) :=
  ⟨rfl, rfl, rfl, rfl⟩

/-- C6 counterexample: `measurement_bases = []` together with the nonempty
`values = [0]` is a values/bases length mismatch — an input the claim covers —
yet `qubit_state_tomography` fails with the `IndexError` from
`measurement_bases[0]` (line 14), which runs before the length assert, and
not with a `ShapeError`: the claim is false as stated for this input. -/
theorem shape_error_claim_counterexample :
    ([0] : List ℚ).length ≠ ([] : List NArr2).length ∧
      qubitStateTomographyRun [] [0] = TomoOutcome.indexError ∧
      qubitStateTomographyRun [] [0] ≠ TomoOutcome.shapeError :=
  ⟨by decide, rfl, fun h => TomoOutcome.noConfusion h⟩

/-- C6 amended: every shape-precondition violation — non-square `C` or
`p_measured` of wrong length in `deconfusion`; a measurement basis that is
not `n × n` or a values/bases length mismatch in `qubit_state_tomography`
with nonempty `measurement_bases`; mismatched before/after shapes, non-square
samples, or `len(expand_basis) ≠ N²` in `process_tomography` — makes the run
end in the shape-error outcome, and since `solveCall` is the only outcome in
which the backend is invoked, the failure occurs before any solve call.  The
one exception, forced by the counterexample, is an empty `measurement_bases`
in `qubit_state_tomography`: there the run ends in the earlier index-error
outcome (line 14) regardless of `values` — still before any solve call, but
not a `ShapeError`. -/
theorem shape_errors_fail_before_solve :
    (∀ (cond : NArr2 → ℚ) (C : NArr2) (pm : NArr1),
        C.cols ≠ C.rows ∨ pm.len ≠ C.rows →
        deconfusionRun cond C pm = DeconOutcome.shapeError) ∧
    (∀ (b0 : NArr2) (rest : List NArr2) (values : List ℚ),
        (¬ ∀ b ∈ b0 :: rest, b.rows = b0.rows ∧ b.cols = b0.rows) ∨
          values.length ≠ (b0 :: rest).length →
        qubitStateTomographyRun (b0 :: rest) values = TomoOutcome.shapeError) ∧
    (∀ values : List ℚ,
        qubitStateTomographyRun [] values = TomoOutcome.indexError ∧
          qubitStateTomographyRun [] values ≠ TomoOutcome.solveCall) ∧
    (∀ before after basis : NArr3,
        ¬(before.dim0 = after.dim0 ∧ before.dim1 = after.dim1 ∧
            before.dim2 = after.dim2) ∨
          before.dim1 ≠ before.dim2 ∨ basis.dim0 ≠ before.dim1 ^ 2 →
        processTomographyRun before after basis = TomoOutcome.shapeError) := by
  refine ⟨?_, ?_, fun values => ⟨rfl, fun h => TomoOutcome.noConfusion h⟩, ?_⟩
  · intro cond C pm h
    unfold deconfusionRun
    rcases h with h | h
    · rw [if_neg h]
    · by_cases hc : C.cols = C.rows
      · rw [if_pos hc, if_neg h]
      · rw [if_neg hc]
  · intro b0 rest values h
    simp only [qubitStateTomographyRun]
    rcases h with h | h
    · rw [if_neg h]
    · by_cases hb : ∀ b ∈ b0 :: rest, b.rows = b0.rows ∧ b.cols = b0.rows
      · rw [if_pos hb, if_neg h]
      · rw [if_neg hb]
  · intro before after basis h
    unfold processTomographyRun
    rcases h with h | h | h
    · rw [if_neg h]
    · by_cases hs : before.dim0 = after.dim0 ∧ before.dim1 = after.dim1 ∧
          before.dim2 = after.dim2
      · rw [if_pos hs, if_neg h]
      · rw [if_neg hs]
    · by_cases hs : before.dim0 = after.dim0 ∧ before.dim1 = after.dim1 ∧
          before.dim2 = after.dim2
      · by_cases hd : before.dim1 = before.dim2
        · rw [if_pos hs, if_pos hd, if_neg h]
        · rw [if_pos hs, if_neg hd]
      · rw [if_neg hs]

/-- Witness for C6 (amended) at concrete bad inputs: a 2×3 confusion matrix,
a values/bases length mismatch with nonempty bases, an empty bases list, and
a non-square sample shape. -/
theorem shape_errors_fail_before_solve_witness :
    deconfusionRun (condConst 1) ⟨2, 3, fun _ _ => 0⟩ ⟨2, fun _ => 0⟩ =
        DeconOutcome.shapeError ∧
    qubitStateTomographyRun [⟨2, 2, fun _ _ => 0⟩] [] = TomoOutcome.shapeError ∧
    qubitStateTomographyRun [] [0] = TomoOutcome.indexError ∧
    processTomographyRun ⟨1, 2, 3, fun _ _ _ => 0⟩ ⟨1, 2, 3, fun _ _ _ => 0⟩
        ⟨4, 2, 2, fun _ _ _ => 0⟩ = TomoOutcome.shapeError :=
  ⟨shape_errors_fail_before_solve.1 (condConst 1) ⟨2, 3, fun _ _ => 0⟩ ⟨2, fun _ => 0⟩
      (Or.inl (by decide)),
    shape_errors_fail_before_solve.2.1 ⟨2, 2, fun _ _ => 0⟩ [] [] (Or.inr (by decide)),
    (shape_errors_fail_before_solve.2.2.1 [0]).1,
    shape_errors_fail_before_solve.2.2.2 ⟨1, 2, 3, fun _ _ _ => 0⟩
      ⟨1, 2, 3, fun _ _ _ => 0⟩ ⟨4, 2, 2, fun _ _ _ => 0⟩ (Or.inr (Or.inl (by decide)))⟩

/-- C7 counterexample: the 1×1 matrix `[[1 + 5e-6]]` has a column sum
deviating from 1 by `5e-6 > 1e-6`, so by the claim `deconfusion` should fail
with `ConstraintError`; instead the run accepts it and reaches the backend,
because `np.allclose(..., atol=1e-6)` still carries numpy's default relative
tolerance `rtol=1e-5`. -/
theorem stochastic_tolerance_claim_counterexample :
    1 / 1000000 < |NArr2.colSum ⟨1, 1, fun _ _ => 1 + 5 / 1000000⟩ 0 - 1| ∧
    deconfusionRun (condConst 1) ⟨1, 1, fun _ _ => 1 + 5 / 1000000⟩ ⟨1, fun _ => 0⟩ =
        DeconOutcome.solveCall false ∧
    deconfusionRun (condConst 1) ⟨1, 1, fun _ _ => 1 + 5 / 1000000⟩ ⟨1, fun _ => 0⟩ ≠
        DeconOutcome.constraintError := by
  have hcol : NArr2.colSum ⟨1, 1, fun _ _ => 1 + 5 / 1000000⟩ 0 = 1 + 5 / 1000000 := by
    simp [NArr2.colSum]
  have habs : |NArr2.colSum ⟨1, 1, fun _ _ => 1 + 5 / 1000000⟩ 0 - 1| = 5 / 1000000 := by
    rw [hcol, show (1 + 5 / 1000000 - 1 : ℚ) = 5 / 1000000 by ring,
      abs_of_nonneg (by norm_num)]
  have hst : stochasticOk ⟨1, 1, fun _ _ => 1 + 5 / 1000000⟩ := by
    intro j hj
    have hj1 : j < 1 := hj
    obtain rfl : j = 0 := by omega
    rw [habs]
    norm_num
  have hrun : deconfusionRun (condConst 1) ⟨1, 1, fun _ _ => 1 + 5 / 1000000⟩
      ⟨1, fun _ => 0⟩ = DeconOutcome.solveCall false := by
    unfold deconfusionRun
    rw [if_pos rfl, if_pos rfl, if_pos hst,
      decide_eq_false (by norm_num [condConst] : ¬ (10:ℚ) < condConst 1 _)]
  refine ⟨by rw [habs]; norm_num, hrun, by rw [hrun]; exact fun h => DeconOutcome.noConfusion h⟩

/-- C7 amended: given the shape checks pass, `deconfusion` fails with
`ConstraintError` exactly when some column sum of `C` deviates from 1 by
more than `1.1e-5` — numpy's `atol=1e-6` plus its default `rtol=1e-5` times
the target value 1 — not by more than `1e-6`. -/
theorem stochastic_tolerance_amended (cond : NArr2 → ℚ) (C : NArr2) (pm : NArr1)
    (hsq : C.cols = C.rows) (hlen : pm.len = C.rows) :
    deconfusionRun cond C pm = DeconOutcome.constraintError ↔
      ∃ j < C.rows, 11 / 1000000 < |C.colSum j - 1| := by
  unfold deconfusionRun
  rw [if_pos hsq, if_pos hlen]
  by_cases hst : stochasticOk C
  · rw [if_pos hst]
    constructor
    · intro h
      exact DeconOutcome.noConfusion h
    · rintro ⟨j, hj, hgt⟩
      exact absurd (hst j hj) (not_le.mpr hgt)
  · rw [if_neg hst]
    have hex : ∃ j < C.rows, 11 / 1000000 < |C.colSum j - 1| := by
      unfold stochasticOk at hst
      push_neg at hst
      exact hst
    exact ⟨fun _ => hex, fun _ => rfl⟩

/-- Witness for C7 (amended) at a concrete input whose single column sums
to 2: the run ends in `ConstraintError` and the deviation witness is
`|2 - 1| > 1.1e-5`. -/
theorem stochastic_tolerance_amended_witness :
    deconfusionRun (condConst 1) ⟨1, 1, fun _ _ => 2⟩ ⟨1, fun _ => 0⟩ =
        DeconOutcome.constraintError ↔
      ∃ j < (NArr2.rows ⟨1, 1, fun _ _ => 2⟩),
        11 / 1000000 < |NArr2.colSum ⟨1, 1, fun _ _ => 2⟩ j - 1| :=
  stochastic_tolerance_amended (condConst 1) ⟨1, 1, fun _ _ => 2⟩ ⟨1, fun _ => 0⟩
    (by decide) (by decide)

/-- C10: calling `qubit_state_tomography` with an empty `measurement_bases`
sequence fails with the `IndexError` raised by `measurement_bases[0]`
(line 14) before any shape validation runs — the outcome is the index-error
one, not `ShapeError`. -/
theorem empty_bases_index_error (values : List ℚ) :
    qubitStateTomographyRun [] values = TomoOutcome.indexError ∧
      qubitStateTomographyRun [] values ≠ TomoOutcome.shapeError :=
  ⟨rfl, fun h => TomoOutcome.noConfusion h⟩

/-- Identity `NArr2` matrices pass the stochasticity test: every column sums
to exactly 1. -/
lemma stochasticOk_idArr (n : ℕ) : stochasticOk (idArr n) := by
  intro j hj
  have hcol : NArr2.colSum (idArr n) j = 1 := by
    unfold NArr2.colSum idArr
    rw [Finset.sum_ite_eq' (Finset.range n) j fun _ => (1 : ℚ)]
    have hj' : j < n := hj
    rw [if_pos (Finset.mem_range.mpr hj')]
  rw [hcol]
  norm_num

/-- C3: for a column-stochastic square `C` and a `p_measured` of matching
length, every point the (exact) backend can return for `p_unconfused` lies on
the probability simplex: all entries between 0 and 1 and summing to 1 — the
constraint set of the program is exactly the simplex. -/
theorem deconfusion_simplex_membership (n : ℕ) (C : NArr2) (pm : NArr1)
    (hn : C.rows = n) (hsq : C.cols = C.rows) (hlen : pm.len = C.rows)
    (hst : stochasticOk C) (p : Fin n → ℝ) (hopt : IsDeconOptimal n C pm p) :
    (∀ i, 0 ≤ p i) ∧ (∀ i, p i ≤ 1) ∧ ∑ i, p i = 1 :=
  hopt.1

/-- Witness for C3 at `C = I₂`, `p_measured = (1/2, 1/2)`: the optimal point
`(1/2, 1/2)` is on the simplex. -/
theorem deconfusion_simplex_membership_witness :
    (0:ℝ) ≤ (![1/2, 1/2] : Fin 2 → ℝ) 0 ∧ (![1/2, 1/2] : Fin 2 → ℝ) 0 ≤ 1 ∧
      ∑ i, (![1/2, 1/2] : Fin 2 → ℝ) i = 1 := by
  have h := deconfusion_simplex_membership 2 (idArr 2) (vecArr [1/2, 1/2]) rfl rfl
    (by decide) (stochasticOk_idArr 2) ![1/2, 1/2] isDeconOptimal_id_half
  exact ⟨h.1 0, h.2.1 0, h.2.2⟩

/-- C9 counterexample: with `C = I₂` and the off-simplex measured vector
`p_measured = (2, 0)` — a valid input: `C` is column-stochastic and lengths
match — the point `(1, 0)` is optimal, and every optimal `p` satisfies
`|p₀ - 2| + |p₁ - 0| ≥ 1` because every feasible point sums to 1: the
returned `p` does not equal `p_measured` within any solver tolerance. -/
theorem deconfusion_identity_claim_counterexample :
    IsDeconOptimal 2 (idArr 2) (vecArr [2, 0]) ![1, 0] ∧
      ∀ p : Fin 2 → ℝ, IsDeconOptimal 2 (idArr 2) (vecArr [2, 0]) p →
        1 ≤ |p 0 - 2| + |p 1 - 0| := by
  refine ⟨isDeconOptimal_id_two_zero, fun p hp => ?_⟩
  have hsum : p 0 + p 1 = 1 := by
    have h := hp.1.2.2
    rwa [Fin.sum_univ_two] at h
  calc (1:ℝ) = |(p 0 - 2) + (p 1 - 0)| := by
        rw [show (p 0 - 2) + (p 1 - 0) = -1 by linarith]
        norm_num
  _ ≤ |p 0 - 2| + |p 1 - 0| := abs_add _ _

/-- C9 amended: when `C` is the identity and `p_measured` itself lies on the
probability simplex, every optimal `p` equals `p_measured` exactly (the
unconstrained optimum is already feasible). -/
theorem deconfusion_identity_on_simplex (n : ℕ) (pm : NArr1) (hlen : pm.len = n)
    (h0 : ∀ i : Fin n, (0:ℝ) ≤ (pm.entry i : ℝ))
    (h1 : ∀ i : Fin n, (pm.entry i : ℝ) ≤ 1)
    (hsum : ∑ i : Fin n, (pm.entry i : ℝ) = 1)
    (p : Fin n → ℝ) (hopt : IsDeconOptimal n (idArr n) pm p) :
    ∀ i, p i = (pm.entry i : ℝ) := by
  have hfeas : DeconFeasible n (fun i : Fin n => (pm.entry i : ℝ)) := ⟨h0, h1, hsum⟩
  have hql := hopt.2 _ hfeas
  rw [deconObj_idArr, deconObj_idArr] at hql
  have hub : (∑ i : Fin n, ((fun i : Fin n => (pm.entry i : ℝ)) i - (pm.entry i : ℝ)) ^ 2)
      = 0 := Finset.sum_eq_zero fun i _ => by simp
  rw [hub] at hql
  have hnn : ∀ i ∈ Finset.univ, (0:ℝ) ≤ (p i - (pm.entry i : ℝ)) ^ 2 :=
    fun i _ => sq_nonneg _
  have hzero : (∑ i : Fin n, (p i - (pm.entry i : ℝ)) ^ 2) = 0 :=
    le_antisymm hql (Finset.sum_nonneg hnn)
  have hterm := (Finset.sum_eq_zero_iff_of_nonneg hnn).mp hzero
  intro i
  have h := hterm i (Finset.mem_univ i)
  have h2 : p i - (pm.entry i : ℝ) = 0 := by
    exact pow_eq_zero_iff two_ne_zero |>.mp h
  linarith

/-- Witness for C9 (amended) at `C = I₂`, `p_measured = (1/2, 1/2)`: the
optimal point's first entry equals the measured first entry. -/
theorem deconfusion_identity_on_simplex_witness :
    (![1/2, 1/2] : Fin 2 → ℝ) 0 = ((vecArr [1/2, 1/2]).entry 0 : ℝ) := by
  have h := deconfusion_identity_on_simplex 2 (vecArr [1/2, 1/2]) (by decide)
    (fun i => by fin_cases i <;> norm_num [vecArr])
    (fun i => by fin_cases i <;> norm_num [vecArr])
    (by rw [Fin.sum_univ_two]; norm_num [vecArr])
    ![1/2, 1/2] isDeconOptimal_id_half
  exact h 0

/-- C8 counterexample: the value `deconfusion` returns is the bare optimal
vector, and no function of it can recover the achieved residual (nor, a
fortiori, the condition number and its classification): the two valid runs
`(C = I₂, p_measured = (1/2, 1/2))` and `(C = I₂, p_measured = (3/5, 3/5))`
both have the unique optimum `(1/2, 1/2)`, yet their achieved residuals
differ (`0` versus `1/50`).  So the claim that the returned result carries
the residual and conditioning diagnostics is false. -/
theorem deconfusion_return_carries_no_diagnostics :
    ¬ ∃ resOf : (Fin 2 → ℝ) → ℝ,
        ∀ (pm : NArr1) (p : Fin 2 → ℝ), pm.len = 2 → stochasticOk (idArr 2) →
          IsDeconOptimal 2 (idArr 2) pm p →
            resOf p = deconObj 2 (idArr 2) pm p := by
  rintro ⟨resOf, hres⟩
  have h1 := hres (vecArr [1/2, 1/2]) ![1/2, 1/2] (by decide) (stochasticOk_idArr 2)
    isDeconOptimal_id_half
  have h2 := hres (vecArr [3/5, 3/5]) ![1/2, 1/2] (by decide) (stochasticOk_idArr 2)
    isDeconOptimal_id_sixtenths
  rw [deconObj_id_half_eval] at h1
  rw [deconObj_id_sixtenths_eval] at h2
  rw [h1] at h2
  norm_num at h2

/-- C8 amended: `deconfusion` evaluates the condition number of `C` and,
exactly when it exceeds 10, prints a non-fatal console warning; reconstruction
then proceeds to the backend either way.  The diagnostics are only printed:
the value returned to the caller is the bare optimal `p` (see the
counterexample showing it carries neither residual nor condition number). -/
theorem deconfusion_warning_iff_cond (cond : NArr2 → ℚ) (C : NArr2) (pm : NArr1)
    (hsq : C.cols = C.rows) (hlen : pm.len = C.rows) (hst : stochasticOk C) :
    deconfusionRun cond C pm = DeconOutcome.solveCall (decide (10 < cond C)) ∧
      (deconfusionRun cond C pm = DeconOutcome.solveCall true ↔ 10 < cond C) := by
  unfold deconfusionRun
  rw [if_pos hsq, if_pos hlen, if_pos hst]
  refine ⟨rfl, ?_⟩
  by_cases h : 10 < cond C
  · simp [h]
  · simp [h]

/-- Witness for C8 (amended) at `C = I₂` with a condition-number oracle
returning 20: the run reaches the backend with the warning printed. -/
theorem deconfusion_warning_iff_cond_witness :
    deconfusionRun (condConst 20) (idArr 2) (vecArr [1/2, 1/2]) =
        DeconOutcome.solveCall (decide ((10:ℚ) < condConst 20 (idArr 2))) ∧
      (deconfusionRun (condConst 20) (idArr 2) (vecArr [1/2, 1/2]) =
          DeconOutcome.solveCall true ↔ (10:ℚ) < condConst 20 (idArr 2)) :=
  deconfusion_warning_iff_cond (condConst 20) (idArr 2) (vecArr [1/2, 1/2])
    (by decide) (by decide) (stochasticOk_idArr 2)

/-- Channel action of a diagonal process matrix: only the `m = n` terms
survive. -/
lemma applyChi_diagonal {N : ℕ} (E : Fin (N * N) → Matrix (Fin N) (Fin N) ℂ)
    (v : Fin (N * N) → ℂ) (rho : Matrix (Fin N) (Fin N) ℂ) :
    applyChi E (Matrix.diagonal v) rho = ∑ m, v m • (E m * rho * (E m)ᴴ) := by
  unfold applyChi
  refine Finset.sum_congr rfl fun m _ => ?_
  rw [Finset.sum_eq_single m (fun n _ hnm => by
      rw [Matrix.diagonal_apply_ne v (fun h => hnm h.symm), zero_smul])
    (fun h => absurd (Finset.mem_univ m) h)]
  rw [Matrix.diagonal_apply_eq]

/-- Nonnegativity transfer from `ℝ` to the complex order. -/
lemma complex_ofReal_nonneg (x : ℝ) (hx : 0 ≤ x) : (0 : ℂ) ≤ (x : ℂ) :=
  Complex.zero_le_real.mpr hx

lemma pauli_span : SpansMatrixSpace pauliE := by
  intro M
  refine (mem_span_range_iff_exists_fun ℂ).mpr ⟨pauliCoeff M, ?_⟩
  show ∑ i : Fin 4, pauliCoeff M i • pauliE i = M
  rw [Fin.sum_univ_four]
  ext a d
  fin_cases a <;> fin_cases d <;>
    simp [pauliCoeff, pauliE] <;> ring_nf <;> simp [Complex.I_sq] <;> ring

lemma rhoHalf_density : IsDensityMatrix rhoHalf := by
  constructor
  · have h : rhoHalf = Matrix.diagonal ![1/2, 1/2] := by
      ext a d
      fin_cases a <;> fin_cases d <;> simp [rhoHalf, Matrix.diagonal]
    rw [h]
    refine Matrix.PosSemidef.diagonal ?_
    intro i
    fin_cases i <;>
      simpa using complex_ofReal_nonneg (1/2) (by norm_num)
  · show Matrix.trace !![(1:ℂ)/2, 0; 0, 1/2] = 1
    rw [Matrix.trace_fin_two_of]
    norm_num

lemma rhoTest_density : IsDensityMatrix rhoTest := by
  constructor
  · have h : rhoTest = Matrix.diagonal ![1, 0] := by
      ext a d
      fin_cases a <;> fin_cases d <;> simp [rhoTest, Matrix.diagonal]
    rw [h]
    refine Matrix.PosSemidef.diagonal ?_
    intro i
    fin_cases i <;> simpa using complex_ofReal_nonneg 1 (by norm_num)
  · show Matrix.trace !![(1:ℂ), 0; 0, 0] = 1
    rw [Matrix.trace_fin_two_of]
    norm_num

lemma chiDep_psd : chiDep.PosSemidef := by
  refine Matrix.PosSemidef.diagonal ?_
  intro i
  simpa using complex_ofReal_nonneg (1/4) (by norm_num)

lemma applyChi_chiDep_rhoHalf : applyChi pauliE chiDep rhoHalf = rhoHalf := by
  rw [show chiDep = Matrix.diagonal fun _ => (1/4 : ℂ) from rfl, applyChi_diagonal]
  show ∑ m : Fin 4, (1/4 : ℂ) • (pauliE m * rhoHalf * (pauliE m)ᴴ) = rhoHalf
  rw [Fin.sum_univ_four]
  ext a d
  fin_cases a <;> fin_cases d <;>
    simp [pauliE, rhoHalf, Matrix.mul_apply, Matrix.vecMul, Matrix.dotProduct,
      Matrix.conjTranspose_apply, Fin.sum_univ_two, Complex.star_def,
      Complex.conj_I] <;>
    ring_nf <;> simp [Complex.I_sq] <;> norm_num

lemma applyChi_chiDep_rhoTest : applyChi pauliE chiDep rhoTest = rhoHalf := by
  rw [show chiDep = Matrix.diagonal fun _ => (1/4 : ℂ) from rfl, applyChi_diagonal]
  show ∑ m : Fin 4, (1/4 : ℂ) • (pauliE m * rhoTest * (pauliE m)ᴴ) = rhoHalf
  rw [Fin.sum_univ_four]
  ext a d
  fin_cases a <;> fin_cases d <;>
    simp [pauliE, rhoTest, rhoHalf, Matrix.mul_apply, Matrix.vecMul,
      Matrix.dotProduct, Matrix.conjTranspose_apply, Fin.sum_univ_two,
      Complex.star_def, Complex.conj_I] <;>
    ring_nf <;> simp [Complex.I_sq] <;> norm_num

lemma chiDep_optimal : IsProcessOptimal rhoBMixed rhoBMixed pauliE chiDep := by
  refine ⟨chiDep_psd, fun chi' _ => ?_⟩
  have h0 : processTomoObj rhoBMixed rhoBMixed pauliE chiDep = 0 :=
    processTomoObj_eq_zero_of fun l => applyChi_chiDep_rhoHalf
  rw [h0]
  exact processTomoObj_nonneg rhoBMixed rhoBMixed pauliE chi'

/-- C1 counterexample: at `N = 2`, `k = 1`, `rho_before = rho_after = [I/2]`
(a valid density matrix) with the spanning Pauli expansion basis, the
completely depolarising process matrix `chi = diag(1/4,1/4,1/4,1/4)` is a
feasible optimum of the process-tomography program (its residual is zero),
yet applying the channel it encodes to the test state `|0⟩⟨0|` returns `I/2`,
not the test state: the reconstructed `chi` need not correspond to the
identity channel on states outside the span of the samples. -/
theorem process_tomography_identity_claim_counterexample :
    (∀ l, IsDensityMatrix (rhoBMixed l)) ∧ SpansMatrixSpace pauliE ∧
      IsProcessOptimal rhoBMixed rhoBMixed pauliE chiDep ∧
      IsDensityMatrix rhoTest ∧ applyChi pauliE chiDep rhoTest ≠ rhoTest := by
  refine ⟨fun l => rhoHalf_density, pauli_span, chiDep_optimal, rhoTest_density, ?_⟩
  rw [applyChi_chiDep_rhoTest]
  intro h
  have h11 := congrFun (congrFun h 1) 1
  simp [rhoHalf, rhoTest] at h11

/-- C1 amended: for identity samples (`rho_after = rho_before`, each a valid
density matrix) and a spanning expansion basis, any optimal `chi` of the
process-tomography program encodes a channel that returns every test state
lying in the complex linear span of the `rho_before` samples; when the
samples themselves span the full matrix space this is every test state, but
for rank-deficient sample sets (see the counterexample) states outside that
span may be altered. -/
theorem process_tomography_identity_on_sample_span (k N : ℕ)
    (rhoB : Fin k → Matrix (Fin N) (Fin N) ℂ)
    (E : Fin (N * N) → Matrix (Fin N) (Fin N) ℂ)
    (chi : Matrix (Fin (N * N)) (Fin (N * N)) ℂ)
    (hdm : ∀ l, IsDensityMatrix (rhoB l))
    (hspan : SpansMatrixSpace E)
    (hopt : IsProcessOptimal rhoB rhoB E chi)
    (rt : Matrix (Fin N) (Fin N) ℂ)
    (hrt : rt ∈ Submodule.span ℂ (Set.range rhoB)) :
    applyChi E chi rt = rt := by
  obtain ⟨chi0, hchi0psd, hchi0id⟩ := exists_identity_chi hspan
  have hobj0 : processTomoObj rhoB rhoB E chi0 = 0 :=
    processTomoObj_eq_zero_of fun l => hchi0id (rhoB l)
  have hle := hopt.2 chi0 hchi0psd
  rw [hobj0] at hle
  have hzero : processTomoObj rhoB rhoB E chi = 0 :=
    le_antisymm hle (processTomoObj_nonneg rhoB rhoB E chi)
  have hfix : ∀ l, applyChi E chi (rhoB l) = rhoB l := fun l =>
    applyChi_fixes_of_obj_zero hzero l
  refine Submodule.span_induction ?_ ?_ ?_ ?_ hrt
  · rintro x ⟨l, rfl⟩ 
    exact hfix l
  · exact applyChi_zero E chi
  · intro x y hx hy hpx hpy
    rw [applyChi_add, hpx, hpy]
  · intro a x hx hpx
    rw [applyChi_smul, hpx]

/-- Witness for C1 (amended) at the concrete Pauli instance: the maximally
mixed sample itself lies in the span of the samples, and the optimal
depolarising `chi` maps it to itself. -/
theorem process_tomography_identity_on_sample_span_witness :
    applyChi pauliE chiDep rhoHalf = rhoHalf :=
  process_tomography_identity_on_sample_span 1 2 rhoBMixed pauliE chiDep
    (fun l => rhoHalf_density) pauli_span chiDep_optimal rhoHalf
    (Submodule.subset_span ⟨0, rfl⟩)
